import Mathlib

/-!
Verification of the `interstellar` mnemonic split/reconstruct tool.

The CLI layer (`src/cli.py`) is embedded directly.  The `tools` module
(classes `BIP39` and `SLIP39`) is part of the repository but its source is
not available here; those components are modelled from the specification
(sections 4.1-4.5), as marked by doc comments starting with
`Modelled from the spec:`.

Conventions of the embedding:
* raw entropy is a list of bytes (`List Nat`, each `< 256`);
* a BIP39 mnemonic is the list of its words' dictionary indices
  (`List Nat`, each `< 2048`); the CLI's space-joined string form is
  identified with the word sequence;
* a SLIP39 share string is the list of its words (`List String`);
* Python exceptions are an explicit `Err` value in `Except`.
-/

/-- The error taxonomy of the system (spec section 7 and section 4), plus the
Python-level `IndexError`/`ValueError` the CLI can raise. -/
inductive Err where
  | invalidWordCount
  | unknownWord
  | checksumMismatch
  | invalidEntropyLength
  | emptyPartSet
  | lengthMismatch
  | invalidThreshold
  | insufficientShares
  | inconsistentGroup
  | duplicateMember
  | indexError
  | valueError
  | partCountMismatch
deriving DecidableEq, Repr

instance {ε α : Type} [DecidableEq ε] [DecidableEq α] : DecidableEq (Except ε α) :=
  fun a b =>
  match a, b with
  | .ok x, .ok y =>
    if h : x = y then .isTrue (by rw [h]) else .isFalse (fun hc => by cases hc; exact h rfl)
  | .error x, .error y =>
    if h : x = y then .isTrue (by rw [h]) else .isFalse (fun hc => by cases hc; exact h rfl)
  | .ok _, .error _ => .isFalse (fun hc => by cases hc)
  | .error _, .ok _ => .isFalse (fun hc => by cases hc)

/-! ### Positional big-endian numerals

Both the BIP39 codec (11-bit words, 8-bit bytes) and nothing else need a
generic fixed-width big-endian digit expansion with its round-trip laws. -/

/-- Big-endian digit expansion of `n` in the given `base`, padded/truncated to
exactly `w` digits (most significant first). -/
def natToBE (base : Nat) : Nat → Nat → List Nat
  | 0, _ => []
  | w + 1, n => natToBE base w (n / base) ++ [n % base]

/-- Fold a big-endian digit list back into the number it denotes. -/
def beToNat (base : Nat) (l : List Nat) : Nat :=
  l.foldl (fun a d => a * base + d) 0

theorem natToBE_length (base : Nat) : ∀ (w n : Nat), (natToBE base w n).length = w := by
  intro w
  induction w with
  | zero => intro n; rfl
  | succ w ih =>
    intro n
    simp [natToBE, ih]

theorem beToNat_append (base : Nat) (l1 l2 : List Nat) :
    beToNat base (l1 ++ l2) = (l2.foldl (fun a d => a * base + d) (beToNat base l1)) := by
  simp [beToNat, List.foldl_append]

theorem beToNat_snoc (base : Nat) (l : List Nat) (d : Nat) :
    beToNat base (l ++ [d]) = beToNat base l * base + d := by
  simp [beToNat_append, List.foldl]

theorem beToNat_natToBE (base : Nat) : ∀ (w n : Nat),
    beToNat base (natToBE base w n) = n % base ^ w := by
  intro w
  induction w with
  | zero => intro n; simp [natToBE, beToNat, Nat.mod_one]
  | succ w ih =>
    intro n
    rw [natToBE, beToNat_snoc, ih]
    rw [pow_succ']
    rw [Nat.mod_mul]
    ring

theorem natToBE_digit_lt (base : Nat) (hb : 0 < base) :
    ∀ (w n : Nat), ∀ d ∈ natToBE base w n, d < base := by
  intro w
  induction w with
  | zero => intro n d hd; simp [natToBE] at hd
  | succ w ih =>
    intro n d hd
    rw [natToBE] at hd
    rcases List.mem_append.mp hd with h | h
    · exact ih _ d h
    · rcases List.mem_singleton.mp h with rfl
      exact Nat.mod_lt _ hb

theorem beToNat_lt (base : Nat) (hb : 0 < base) :
    ∀ (l : List Nat), (∀ d ∈ l, d < base) → beToNat base l < base ^ l.length := by
  intro l
  induction l using List.reverseRecOn with
  | nil => intro _; simp [beToNat]
  | append_singleton l d ih =>
    intro hall
    rw [beToNat_snoc]
    have hd : d < base := hall d (by simp)
    have hl : beToNat base l < base ^ l.length := ih (fun x hx => hall x (by simp [hx]))
    have h1 : beToNat base l * base + d < (beToNat base l + 1) * base := by
      calc beToNat base l * base + d < beToNat base l * base + base := by omega
        _ = (beToNat base l + 1) * base := by ring
    have h2 : (beToNat base l + 1) * base ≤ base ^ l.length * base :=
      Nat.mul_le_mul_right base hl
    calc beToNat base l * base + d < base ^ l.length * base := lt_of_lt_of_le h1 h2
      _ = base ^ (l ++ [d]).length := by
        simp [pow_succ]

theorem natToBE_beToNat (base : Nat) (hb : 0 < base) :
    ∀ (l : List Nat), (∀ d ∈ l, d < base) → natToBE base l.length (beToNat base l) = l := by
  intro l
  induction l using List.reverseRecOn with
  | nil => intro _; rfl
  | append_singleton l d ih =>
    intro hall
    have hd : d < base := hall d (by simp)
    have hlen : (l ++ [d]).length = l.length + 1 := by simp
    rw [hlen, beToNat_snoc, natToBE]
    have hdiv : (beToNat base l * base + d) / base = beToNat base l := by
      rw [Nat.add_comm, Nat.add_mul_div_right _ _ hb, Nat.div_eq_of_lt hd, Nat.zero_add]
    have hmod : (beToNat base l * base + d) % base = d := by
      rw [Nat.add_comm, Nat.add_mul_mod_self_right, Nat.mod_eq_of_lt hd]
    rw [hdiv, hmod, ih (fun x hx => hall x (by simp [hx]))]

/-! ### Entropy Codec (spec section 4.2)

The codec lives in the repository's `tools` module, which is not under
`src/`; it is modelled from the spec. -/

/-- Modelled from the spec: the checksum over the entropy is the leading
`entropy.length / 4` bits of a cryptographic hash of the entropy bytes.
The hash itself is abstracted by a fixed deterministic byte-mixing function;
every property proved below depends only on the checksum being a
deterministic function of the entropy that fits in `entropy.length / 4`
bits. -/
def bip39_checksum (entropy : List Nat) : Nat :=
  (entropy.foldl (fun a b => (a * 31 + b) % 4294967296) 7) % 2 ^ (entropy.length / 4)

theorem bip39_checksum_lt (entropy : List Nat) :
    bip39_checksum entropy < 2 ^ (entropy.length / 4) :=
  Nat.mod_lt _ (pow_pos (by norm_num) _)

/-- Mnemonic word count for an entropy of `len` bytes:
`(entropy bits + checksum bits) / 11` (spec section 3). -/
def wordCountOf (len : Nat) : Nat := (8 * len + len / 4) / 11

/-- Modelled from the spec (section 4.2 `encode`): checksum bits are appended
after the entropy bits and the combined bitstream is segmented into 11-bit
groups, each group an index into the 2048-word dictionary. -/
def bip39_encode (entropy : List Nat) : List Nat :=
  natToBE 2048 (wordCountOf entropy.length)
    (beToNat 256 entropy * 2 ^ (entropy.length / 4) + bip39_checksum entropy)

/-- Modelled from the spec (section 4.2 `decode`): validates the word count,
rejects out-of-dictionary indices, splits the bitstream into entropy and
checksum bits, and verifies the checksum. -/
def bip39_decode (mnemonic : List Nat) : Except Err (List Nat) :=
  if mnemonic.length ∈ ([12, 15, 18, 21, 24] : List Nat) then
    if ∀ w ∈ mnemonic, w < 2048 then
      let cs := mnemonic.length / 3
      let n := beToNat 2048 mnemonic
      let entropy := natToBE 256 (4 * mnemonic.length / 3) (n / 2 ^ cs)
      if bip39_checksum entropy = n % 2 ^ cs then .ok entropy
      else .error .checksumMismatch
    else .error .unknownWord
  else .error .invalidWordCount

theorem bip39_encode_length (e : List Nat) :
    (bip39_encode e).length = wordCountOf e.length := by
  simp [bip39_encode, natToBE_length]

/-- Auxiliary round-trip lemma, parameterized by the arithmetic facts that
hold at each of the five valid entropy lengths. -/
theorem bip39_decode_encode_aux (e : List Nat) (hb : ∀ b ∈ e, b < 256)
    (h11 : 8 * e.length + e.length / 4 = 11 * wordCountOf e.length)
    (hwc : wordCountOf e.length ∈ ([12, 15, 18, 21, 24] : List Nat))
    (hlen : 4 * wordCountOf e.length / 3 = e.length)
    (hcs : wordCountOf e.length / 3 = e.length / 4) :
    bip39_decode (bip39_encode e) = .ok e := by
  have hcslt : bip39_checksum e < 2 ^ (e.length / 4) := bip39_checksum_lt e
  have he : beToNat 256 e < 256 ^ e.length := beToNat_lt 256 (by norm_num) e hb
  have h2048 : (2048 : Nat) ^ wordCountOf e.length = 256 ^ e.length * 2 ^ (e.length / 4) := by
    rw [show (2048 : Nat) = 2 ^ 11 by norm_num, ← pow_mul, ← h11, pow_add]
    rw [show (256 : Nat) = 2 ^ 8 by norm_num, ← pow_mul]
  have hM : beToNat 256 e * 2 ^ (e.length / 4) + bip39_checksum e
      < 2048 ^ wordCountOf e.length := by
    rw [h2048]
    have h1 : beToNat 256 e * 2 ^ (e.length / 4) + bip39_checksum e
        < (beToNat 256 e + 1) * 2 ^ (e.length / 4) := by
      rw [add_mul, one_mul]
      exact Nat.add_lt_add_left hcslt _
    have h2 : (beToNat 256 e + 1) * 2 ^ (e.length / 4)
        ≤ 256 ^ e.length * 2 ^ (e.length / 4) :=
      Nat.mul_le_mul_right _ (by omega)
    exact lt_of_lt_of_le h1 h2
  have hdigits : ∀ w ∈ bip39_encode e, w < 2048 :=
    fun w hw => natToBE_digit_lt 2048 (by norm_num) _ _ w hw
  have hn : beToNat 2048 (bip39_encode e)
      = beToNat 256 e * 2 ^ (e.length / 4) + bip39_checksum e := by
    rw [bip39_encode, beToNat_natToBE, Nat.mod_eq_of_lt hM]
  have hdiv : (beToNat 256 e * 2 ^ (e.length / 4) + bip39_checksum e) / 2 ^ (e.length / 4)
      = beToNat 256 e := by
    rw [Nat.add_comm, Nat.add_mul_div_right _ _ (pow_pos (by norm_num) _),
      Nat.div_eq_of_lt hcslt, Nat.zero_add]
  have hmod : (beToNat 256 e * 2 ^ (e.length / 4) + bip39_checksum e) % 2 ^ (e.length / 4)
      = bip39_checksum e := by
    rw [Nat.add_comm, Nat.add_mul_mod_self_right, Nat.mod_eq_of_lt hcslt]
  have hback : natToBE 256 e.length (beToNat 256 e) = e := by
    have := natToBE_beToNat 256 (by norm_num) e hb
    simpa using this
  rw [bip39_decode]
  rw [if_pos (by rw [bip39_encode_length]; exact hwc)]
  rw [if_pos hdigits]
  simp only [bip39_encode_length, hn, hcs, hdiv, hmod, hlen, hback]
  simp

/-- Round-trip, decode-after-encode direction, for every valid entropy
length. -/
theorem bip39_decode_encode (e : List Nat)
    (hlen : e.length ∈ ([16, 20, 24, 28, 32] : List Nat))
    (hb : ∀ b ∈ e, b < 256) :
    bip39_decode (bip39_encode e) = .ok e := by
  apply bip39_decode_encode_aux e hb
  all_goals
    simp only [List.mem_cons, List.not_mem_nil, or_false] at hlen ⊢
    rcases hlen with h | h | h | h | h <;> rw [h] <;> norm_num [wordCountOf]

/-- Round-trip, encode-after-decode direction: a successfully decoded
mnemonic re-encodes to itself. -/
theorem bip39_encode_decode (m e : List Nat) (h : bip39_decode m = .ok e) :
    bip39_encode e = m := by
  rw [bip39_decode] at h
  by_cases hwc : m.length ∈ ([12, 15, 18, 21, 24] : List Nat)
  · rw [if_pos hwc] at h
    by_cases hdig : ∀ w ∈ m, w < 2048
    · rw [if_pos hdig] at h
      simp only at h
      by_cases hchk : bip39_checksum (natToBE 256 (4 * m.length / 3)
          (beToNat 2048 m / 2 ^ (m.length / 3))) = beToNat 2048 m % 2 ^ (m.length / 3)
      · rw [if_pos hchk] at h
        have he : e = natToBE 256 (4 * m.length / 3)
            (beToNat 2048 m / 2 ^ (m.length / 3)) := by
          cases h; rfl
        have harith : 4 * m.length / 3 / 4 = m.length / 3
            ∧ wordCountOf (4 * m.length / 3) = m.length
            ∧ 11 * m.length = 8 * (4 * m.length / 3) + m.length / 3 := by
          simp only [List.mem_cons, List.not_mem_nil, or_false] at hwc
          rcases hwc with h' | h' | h' | h' | h' <;> rw [h'] <;> norm_num [wordCountOf]
        obtain ⟨ha1, ha2, ha3⟩ := harith
        have hmlt : beToNat 2048 m < 2048 ^ m.length := beToNat_lt 2048 (by norm_num) m hdig
        have hdivlt : beToNat 2048 m / 2 ^ (m.length / 3) < 256 ^ (4 * m.length / 3) := by
          rw [Nat.div_lt_iff_lt_mul (pow_pos (by norm_num) _)]
          calc beToNat 2048 m < 2048 ^ m.length := hmlt
            _ = 256 ^ (4 * m.length / 3) * 2 ^ (m.length / 3) := by
              rw [show (2048 : Nat) = 2 ^ 11 by norm_num, ← pow_mul,
                show (256 : Nat) = 2 ^ 8 by norm_num, ← pow_mul, ← pow_add, ← ha3]
        have hebe : beToNat 256 e = beToNat 2048 m / 2 ^ (m.length / 3) := by
          rw [he, beToNat_natToBE, Nat.mod_eq_of_lt hdivlt]
        have helen : e.length = 4 * m.length / 3 := by
          rw [he, natToBE_length]
        rw [bip39_encode, helen, hebe, ha1, ha2, he, hchk, Nat.div_add_mod']
        exact natToBE_beToNat 2048 (by norm_num) m hdig
      · rw [if_neg hchk] at h; cases h
    · rw [if_neg hdig] at h; cases h
  · rw [if_neg hwc] at h; cases h

/-! ### Entropy Splitter (spec section 4.3)

Also part of the `tools` module absent from `src/`; modelled from the spec. -/

/-- Byte-wise XOR of two equal-length byte lists. -/
def xorBytes (a b : List Nat) : List Nat := List.zipWith (fun x y => Nat.xor x y) a b

/-- Modelled from the spec (section 4.3 `split`), with the random source
injected as an explicit parameter (spec section 9, random-source injection):
`n = 1` returns `[entropy]` unchanged; for `n > 1` the first `n - 1` parts
are random entropy-sized byte lists and the final part is the XOR of the
original entropy with all of them. -/
def xor_split (rand : Nat → Nat → Nat) (entropy : List Nat) (n : Nat) :
    List (List Nat) :=
  if n ≤ 1 then [entropy]
  else
    let rs := (List.range (n - 1)).map
      (fun i => (List.range entropy.length).map (fun j => rand i j % 256))
    rs ++ [rs.foldl xorBytes entropy]

theorem xor_split_length (rand : Nat → Nat → Nat) (entropy : List Nat) (n : Nat)
    (hn : 1 ≤ n) : (xor_split rand entropy n).length = n := by
  rw [xor_split]
  by_cases h : n ≤ 1
  · rw [if_pos h]; simp only [List.length_singleton]; omega
  · rw [if_neg h]; simp; omega

/-- Modelled from the spec (section 4.3 `combine`): XOR-folds all parts;
fails with `EmptyPartSet` on zero parts and `LengthMismatch` on unequal
part lengths. -/
def xor_combine : List (List Nat) → Except Err (List Nat)
  | [] => .error .emptyPartSet
  | p :: ps =>
    if ∀ q ∈ ps, q.length = p.length then .ok (ps.foldl xorBytes p)
    else .error .lengthMismatch

/-! ### BIP39 facade (`tools.BIP39`, modelled from the spec) -/

/-- Effectful map over a list in the `Except Err` monad, sequencing errors
left to right (the order Python's loops and comprehensions surface
exceptions). -/
def mapME {α β : Type} (f : α → Except Err β) : List α → Except Err (List β)
  | [] => .ok []
  | a :: as => do
    let b ← f a
    let bs ← mapME f as
    .ok (b :: bs)

/-- Modelled from the spec (sections 2 and 4.6): `BIP39.deconstruct` decodes
the mnemonic to entropy, splits it into `n` parts, and re-encodes each part
as its own mnemonic. -/
def BIP39.deconstruct (rand : Nat → Nat → Nat) (mnemonic : List Nat) (n : Nat) :
    Except Err (List (List Nat)) := do
  let entropy ← bip39_decode mnemonic
  .ok ((xor_split rand entropy n).map bip39_encode)

/-- Modelled from the spec: `BIP39.reconstruct` decodes each part's mnemonic,
XOR-combines the entropies and re-encodes the result. -/
def BIP39.reconstruct (parts : List (List Nat)) : Except Err (List Nat) := do
  let es ← mapME bip39_decode parts
  let entropy ← xor_combine es
  .ok (bip39_encode entropy)

/-- Modelled from the spec (section 4.5): the Derivation Verifier is a
deterministic pure function from a mnemonic to a short address-like string;
its key-derivation and hashing pipeline is abstracted by a fixed
deterministic stand-in. -/
def BIP39.eth (mnemonic : List Nat) : String :=
  "0x" ++ toString (mnemonic.foldl (fun a w => (a * 2053 + w) % 1000000007) 1)

/-! ### CLI layer (src/cli.py) -/

/-- JSON-like values, for the CLI's structured output. -/
inductive JVal where
  | s (v : String)
  | n (v : Nat)
  | b (v : Bool)
  | arr (v : List JVal)

/-- A JSON object, as the ordered list of its fields. -/
abbrev JObj : Type := List (String × JVal)

/-- The field names of a JSON object. -/
def JObj.keys (o : JObj) : List String := o.map Prod.fst

/-- Look up a field of a JSON object (first occurrence). -/
def JObj.get (o : JObj) (k : String) : Option JVal :=
  match o.find? (fun f => f.fst = k) with
  | some f => some f.snd
  | none => none

/-- `cli.slip39.map[word]`: word to 1-based dictionary index.  Modelled from
the spec (section 4.1): a bidirectional (word, index) map with indices in
`[1, size]`; an absent word is a lookup failure. -/
def dictIndexOf (d : List String) (w : String) : Except Err Nat :=
  if w ∈ d then .ok (d.indexOf w + 1) else .error .unknownWord

/-- Python list indexing, including negative-index wrap-around;
out of range raises `IndexError`. -/
def pyGet {α : Type} (l : List α) (i : Int) : Except Err α :=
  let j : Int := if i < 0 then (l.length : Int) + i else i
  if 0 ≤ j then
    match l.get? j.toNat with
    | some a => .ok a
    | none => .error .indexError
  else .error .indexError

/-- `cli.slip39.words[idx - 1]` applied across a digit-form member
(src/cli.py lines 124-126): each 1-based numeric index is substituted back
to its dictionary word. -/
def digitDecodeMember (d : List String) (member : List Nat) :
    Except Err (List String) :=
  mapME (fun idx : Nat => pyGet d ((idx : Int) - 1)) member

/-- `str(cli.slip39.map[word]) for word in share.split()`
(src/cli.py lines 83-84): a share's words are substituted by their 1-based
numeric indices. -/
def digitEncodeShare (d : List String) (share : List String) :
    Except Err (List Nat) :=
  mapME (dictIndexOf d) share

/-- The per-part share production of `deconstruct`'s SLIP39 branch
(src/cli.py lines 80-85): run the sharing engine on the part, then
digit-substitute if requested.  `sdec` is the `tools.SLIP39.deconstruct`
engine. -/
def deconGroup (d : List String)
    (sdec : List Nat → Nat → Nat → Except Err (List (List String)))
    (required total : Nat) (digits : Bool) (part : List Nat) :
    Except Err JVal := do
  let shares ← sdec part required total
  if digits then do
    let ds ← mapME (digitEncodeShare d) shares
    .ok (JVal.arr (ds.map (fun share => JVal.arr (share.map JVal.n))))
  else
    .ok (JVal.arr (shares.map (fun share => JVal.arr (share.map JVal.s))))

/-- `deconstruct` with standard SLIP39 (src/cli.py lines 57-94): auto-detect
the split count from the word count, split via `BIP39.deconstruct`, produce
shares per part, and package the JSON object with exactly the fields the
code emits. -/
def deconstruct_slip39 (d : List String)
    (sdec : List Nat → Nat → Nat → Except Err (List (List String)))
    (rand : Nat → Nat → Nat) (mnemonic : List Nat) (required total : Nat)
    (digits : Bool) : Except Err JObj :=
  if mnemonic.isEmpty then .error .valueError
  else do
    let split := if mnemonic.length = 24 then 2 else 1
    let bip_parts ← BIP39.deconstruct rand mnemonic split
    let groups ← mapME (deconGroup d sdec required total digits) bip_parts
    .ok [("standard", JVal.s "SLIP39"), ("shares", JVal.arr groups),
         ("split", JVal.n split), ("digits", JVal.b digits)]

/-- One output bundle of `deconstruct`'s BIP39 branch
(src/cli.py lines 70-75). -/
def bip39Bundle (digits : Bool) (p : List Nat) : JObj :=
  [("standard", JVal.s "BIP39"), ("mnemonic", JVal.arr (p.map JVal.n)),
   ("eth_addr", JVal.s (BIP39.eth p)), ("digits", JVal.b digits)]

/-- `deconstruct` with standard BIP39 (src/cli.py lines 57-77): one result
bundle per part, each with that part's mnemonic and its own derived
address. -/
def deconstruct_bip39 (rand : Nat → Nat → Nat) (mnemonic : List Nat)
    (digits : Bool) : Except Err (List JObj) :=
  if mnemonic.isEmpty then .error .valueError
  else do
    let split := if mnemonic.length = 24 then 2 else 1
    let bip_parts ← BIP39.deconstruct rand mnemonic split
    .ok (bip_parts.map (bip39Bundle digits))

/-- Python `l[i]` for a nonnegative index: out of range raises
`IndexError`. -/
def pyIndex {α : Type} (l : List α) (i : Nat) : Except Err α :=
  match l.get? i with
  | some a => .ok a
  | none => .error .indexError

/-- The per-group loop of `reconstruct`'s SLIP39 branch
(src/cli.py lines 120-129).  `prep` is the per-group digit substitution
(pure identity in word mode); on every iteration `required` is re-read via
`get_required(group[gidx])` -- the group is indexed by its own group index
-- and the group is then reconstructed to one BIP39 part by the engine
`srec` (`tools.SLIP39.reconstruct`).  Returns the final value of `required`
together with the collected parts. -/
def reconLoopS {gty : Type} (prep : gty → Except Err (List (List String)))
    (get_required : List String → Nat)
    (srec : List (List String) → Except Err (List Nat)) :
    Nat → Nat → List gty → Except Err (Nat × List (List Nat))
  | _, required, [] => .ok (required, [])
  | gidx, _, g0 :: gs => do
    let group ← prep g0
    let member ← pyIndex group gidx
    let required := get_required member
    let part ← srec group
    let (r, ps) ← reconLoopS prep get_required srec (gidx + 1) required gs
    .ok (r, part :: ps)

/-- `reconstruct` with standard SLIP39 (src/cli.py lines 97-144): each group
is reconstructed to a part, the parts are recombined by
`BIP39.reconstruct`, and the JSON output echoes the (last) extracted
`required` value. -/
def reconstruct_slip39 {gty : Type} (prep : gty → Except Err (List (List String)))
    (get_required : List String → Nat)
    (srec : List (List String) → Except Err (List Nat))
    (digits : Bool) (groups : List gty) : Except Err JObj :=
  if groups.isEmpty then .error .valueError
  else do
    let rp ← reconLoopS prep get_required srec 0 0 groups
    let m ← BIP39.reconstruct rp.2
    .ok [("standard", JVal.s "BIP39"), ("mnemonic", JVal.arr (m.map JVal.n)),
         ("eth_addr", JVal.s (BIP39.eth m)), ("required", JVal.n rp.1),
         ("digits", JVal.b digits)]

/-- `reconstruct` with standard BIP39 and word-form input
(src/cli.py lines 130-144): the groups are flattened into a single list of
parts and recombined, with no validation of the number of groups or parts
against the original split count.  `required` keeps its initial value 0. -/
def reconstruct_bip39 (groups : List (List (List Nat))) : Except Err JObj :=
  if groups.isEmpty then .error .valueError
  else do
    let m ← BIP39.reconstruct groups.flatten
    .ok [("standard", JVal.s "BIP39"), ("mnemonic", JVal.arr (m.map JVal.n)),
         ("eth_addr", JVal.s (BIP39.eth m)), ("required", JVal.n 0),
         ("digits", JVal.b false)]

/-! ### Threshold Sharing Engine (spec section 4.4, `tools.SLIP39`)

Also absent from `src/`; modelled from the spec. -/

/-- A share: (groupIndex, memberIndex, threshold) metadata together with the
value fragment (spec section 3, Share). -/
structure Share where
  groupIndex : Nat
  memberIndex : Nat
  threshold : Nat
  value : List Nat
deriving DecidableEq, Repr

/-- Russian-peasant multiplication in GF(256) with the polynomial
`x^8 + x^4 + x^3 + x + 1` (0x11b), 8 rounds. -/
def gfMulAux : Nat → Nat → Nat → Nat → Nat
  | 0, _, _, acc => acc
  | k + 1, a, b, acc =>
    let acc2 := if b % 2 = 1 then Nat.xor acc a else acc
    let a2 := if 128 ≤ a then Nat.xor (a * 2) 283 else a * 2
    gfMulAux k (a2 % 256) (b / 2) acc2

/-- Modelled from the spec (section 9, finite-field arithmetic):
multiplication in GF(256). -/
def gfMul (a b : Nat) : Nat := gfMulAux 8 (a % 256) (b % 256) 0

/-- Field exponentiation. -/
def gfPow (a : Nat) : Nat → Nat
  | 0 => 1
  | k + 1 => gfMul a (gfPow a k)

/-- Multiplicative inverse in GF(256) as `a ^ 254` (zero, which has no
inverse, maps to zero). -/
def gfInv (a : Nat) : Nat := gfPow a 254

/-- Evaluate a polynomial (constant term first) at `x` over GF(256). -/
def gfPolyEval (coeffs : List Nat) (x : Nat) : Nat :=
  coeffs.foldr (fun c acc => Nat.xor (gfMul acc x) c) 0

/-- Modelled from the spec (section 4.4 `split`): requires `1 ≤ M ≤ N`; for
each byte of the part a random polynomial of degree `M - 1` whose constant
term is that byte is evaluated at the distinct non-zero points `1..N`, and
each evaluation is packaged with (groupIndex, memberIndex, M) metadata.
The random coefficients come from the injected random source. -/
def slip39_split (rand : Nat → Nat → Nat) (part : List Nat) (m n gidx : Nat) :
    Except Err (List Share) :=
  if m < 1 ∨ n < m then .error .invalidThreshold
  else .ok ((List.range n).map (fun i =>
    { groupIndex := gidx
      memberIndex := i + 1
      threshold := m
      value := part.enum.map (fun p =>
        gfPolyEval (p.2 % 256 :: (List.range (m - 1)).map (fun k => rand p.1 k % 256))
          (i + 1)) }))

/-- Lagrange interpolation at `x = 0` over GF(256), per byte position. -/
def gfInterpolate (pts : List (Nat × List Nat)) (bytelen : Nat) : List Nat :=
  (List.range bytelen).map (fun j =>
    pts.foldl (fun acc pt =>
      let others := pts.filter (fun q => q.1 ≠ pt.1)
      let num := others.foldl (fun p q => gfMul p q.1) 1
      let den := others.foldl (fun p q => gfMul p (Nat.xor q.1 pt.1)) 1
      Nat.xor acc (gfMul (pt.2.getD j 0) (gfMul num (gfInv den)))) 0)

/-- Modelled from the spec (section 4.4 `reconstruct`), with the error
conditions checked in the spec's order: fewer than `M` distinct member
indices is `InsufficientShares`; disagreeing metadata is
`InconsistentGroup`; a repeated member index is `DuplicateMember`;
otherwise the part is recovered by interpolation at `x = 0`. -/
def slip39_reconstruct (shares : List Share) : Except Err (List Nat) :=
  match shares with
  | [] => .error .insufficientShares
  | s :: rest =>
    if ((s :: rest).map Share.memberIndex).dedup.length < s.threshold then
      .error .insufficientShares
    else if ¬ (∀ t ∈ rest, t.threshold = s.threshold ∧ t.groupIndex = s.groupIndex) then
      .error .inconsistentGroup
    else if ¬ ((s :: rest).map Share.memberIndex).Nodup then
      .error .duplicateMember
    else
      .ok (gfInterpolate ((s :: rest).map (fun t => (t.memberIndex, t.value)))
        s.value.length)

theorem slip39_split_threshold (rand : Nat → Nat → Nat) (part : List Nat)
    (m n gidx : Nat) (shs : List Share)
    (h : slip39_split rand part m n gidx = .ok shs) :
    ∀ x ∈ shs, x.threshold = m := by
  rw [slip39_split] at h
  by_cases hc : m < 1 ∨ n < m
  · rw [if_pos hc] at h; cases h
  · rw [if_neg hc] at h
    cases h
    intro x hx
    rcases List.mem_map.mp hx with ⟨i, _, rfl⟩
    rfl

/-! ### CLI string helpers (src/cli.py)

Python's string primitives are re-implemented structurally over the
character list of a `String` (the library versions use well-founded
recursion, which blocks kernel evaluation on concrete inputs). -/

/-- Split a character list on a separator character, keeping empty
fragments: the model of Python `str.split(sep)` for a one-character
separator.  The result is always nonempty. -/
def splitOnChar (sep : Char) : List Char → List (List Char)
  | [] => [[]]
  | c :: cs =>
    match splitOnChar sep cs with
    | [] => if c = sep then [[], []] else [[c]]
    | r :: rs => if c = sep then [] :: r :: rs else (c :: r) :: rs

/-- Python's whitespace test for `str.strip()` / `str.split()`. -/
def isPySpace (c : Char) : Bool := c = ' ' ∨ c = '\t' ∨ c = '\n' ∨ c = '\r'

/-- Python `str.strip()`. -/
def pyStrip (s : String) : String :=
  String.mk (((s.data.dropWhile isPySpace).reverse.dropWhile isPySpace).reverse)

/-- Split a string on a separator character, keeping empty fragments. -/
def pySplitOn (sep : Char) (s : String) : List String :=
  (splitOnChar sep s.data).map String.mk

/-- `CLI.parse_2D_list` (src/cli.py lines 27-34): strip the input, return
`[]` when nothing remains, otherwise split on `;` into groups and each
stripped group on `,` into members. -/
def parse_2D_list (value : String) : List (List String) :=
  let v := pyStrip value
  if v = "" then []
  else (pySplitOn ';' v).map (fun line => pySplitOn ',' (pyStrip line))

/-- Python's no-argument `str.split()` for the space-separated tokens the
CLI handles: split on spaces and drop empty fragments. -/
def pySplit (s : String) : List String :=
  ((splitOnChar ' ' s.data).filter (fun t => ¬ t.isEmpty)).map String.mk

/-- Python `int(s)` for nonnegative decimal tokens; anything else raises
`ValueError`. -/
def pyInt (s : String) : Except Err Nat :=
  if s.data ≠ [] ∧ ∀ c ∈ s.data, '0' ≤ c ∧ c ≤ '9' then
    .ok (s.data.foldl (fun a c => a * 10 + (c.toNat - 48)) 0)
  else .error .valueError

/-- `" ".join(...)`. -/
def joinWith (sep : Char) (ws : List String) : String :=
  String.mk (List.intercalate [sep] (ws.map String.data))

/-- One application of
`" ".join(cli.bip39.words[int(idx) - 1] for idx in share.split())`
(src/cli.py lines 133-134) to the string `share`. -/
def bip39DigitSubstShare (d : List String) (share : String) : Except Err String := do
  let ws ← mapME (fun idx => do
      let n ← pyInt idx
      pyGet d ((n : Int) - 1)) (pySplit share)
  .ok (joinWith ' ' ws)

/-- The digit branch of `reconstruct` for standard BIP39 exactly as the code
is written (src/cli.py lines 131-134): after flattening the groups into
`shares`, the comprehension `for share in shares[0]` iterates over the
CHARACTERS of the first flattened part string and substitutes each
character on its own. -/
def reconstruct_bip39_digits_code (d : List String) (shares : List String) :
    Except Err (List String) := do
  let s0 ←
    match shares.head? with
    | some s => Except.ok s
    | none => Except.error Err.indexError
  mapME (fun c => bip39DigitSubstShare d (String.mk [c])) s0.data

/-- The same step as the spec describes it (section 6): every digit-form
part in the flattened list is substituted back to its word form. -/
def reconstruct_bip39_digits_spec (d : List String) (shares : List String) :
    Except Err (List String) :=
  mapME (bip39DigitSubstShare d) shares

/-! ### Generic facts about the `Except Err` embedding -/

theorem ok_bind {α β : Type} (a : α) (f : α → Except Err β) :
    (Except.ok a >>= f) = f a := rfl

theorem error_bind {α β : Type} (er : Err) (f : α → Except Err β) :
    ((Except.error er : Except Err α) >>= f) = .error er := rfl

theorem mapME_error {α β : Type} (f : α → Except Err β) :
    ∀ (l : List α) (er : Err), mapME f l = .error er → ∃ a ∈ l, f a = .error er := by
  intro l
  induction l with
  | nil => intro er h; cases h
  | cons a as ih =>
    intro er h
    rw [mapME] at h
    cases hfa : f a with
    | error e2 =>
      rw [hfa, error_bind] at h
      cases h
      exact ⟨a, by simp, hfa⟩
    | ok b =>
      rw [hfa, ok_bind] at h
      cases hrest : mapME f as with
      | error e2 =>
        rw [hrest, error_bind] at h
        cases h
        rcases ih er hrest with ⟨x, hx, hfx⟩
        exact ⟨x, by simp [hx], hfx⟩
      | ok bs => rw [hrest, ok_bind] at h; cases h

theorem mapME_ok_of_forall {α β : Type} (f : α → Except Err β) :
    ∀ (l : List α), (∀ a ∈ l, ∃ b, f a = .ok b) → ∃ bs, mapME f l = .ok bs := by
  intro l
  induction l with
  | nil => intro _; exact ⟨[], rfl⟩
  | cons a as ih =>
    intro h
    rcases h a (by simp) with ⟨b, hb⟩
    rcases ih (fun x hx => h x (by simp [hx])) with ⟨bs, hbs⟩
    exact ⟨b :: bs, by rw [mapME, hb, ok_bind, hbs, ok_bind]⟩

/-! ### Concrete test material (dictionary stand-ins, fixed random source,
engines at the CLI boundary used to instantiate parameterized theorems) -/

/-- A fixed deterministic random source for concrete test vectors. -/
def randC (i j : Nat) : Nat := (i * 131 + j * 17 + 23) % 256

/-- A concrete 32-byte entropy. -/
def entropy32 : List Nat := List.range 32

/-- Its 24-word mnemonic. -/
def mnemonic24 : List Nat := bip39_encode entropy32

/-- The two parts `deconstruct` derives from `mnemonic24`. -/
def parts24 : List (List Nat) := (xor_split randC entropy32 2).map bip39_encode

/-- A concrete stand-in sharing engine at the CLI boundary (share content is
irrelevant to the CLI-level claims it instantiates). -/
def sdecC (part : List Nat) (req tot : Nat) : Except Err (List (List String)) :=
  if req < 1 ∨ tot < req then .error .invalidThreshold
  else .ok (List.replicate tot (List.replicate (part.length + 1) "w"))

/-- A concrete stand-in for `tools.SLIP39.get_required`. -/
def reqC (member : List String) : Nat := member.length

/-- A concrete stand-in reconstruction engine at the CLI boundary,
exhibiting the spec-mandated behavior that a group with fewer shares than
the threshold fails with `InsufficientShares` (spec section 4.4). -/
def srecC (g : List (List String)) : Except Err (List Nat) :=
  if g.length < 2 then .error .insufficientShares
  else .ok (bip39_encode (List.range 16))

/-! ### Digit substitution of whole groups (src/cli.py lines 82-84 and
124-126) -/

/-- Digit substitution of one share group at `deconstruct` time. -/
def digitEncodeGroup (d : List String) (g : List (List String)) :
    Except Err (List (List Nat)) :=
  mapME (digitEncodeShare d) g

/-- Digit decoding of one group at `reconstruct` time. -/
def digitDecodeGroup (d : List String) (g : List (List Nat)) :
    Except Err (List (List String)) :=
  mapME (digitDecodeMember d) g

/-! ### Claims -/

/-- C10: `parse_2D_list` is total and never fails; an empty or
whitespace-only input yields `[]`, and any other input is split on `;` into
groups, each group stripped and split on `,` into members, preserving
order. -/
theorem claim_C10 (value : String) :
    (pyStrip value = "" → parse_2D_list value = []) ∧
    (pyStrip value ≠ "" → parse_2D_list value =
      (pySplitOn ';' (pyStrip value)).map (fun line => pySplitOn ',' (pyStrip line))) := by
  constructor
  · intro h; simp [parse_2D_list, h]
  · intro h; simp [parse_2D_list, h]

/-- Witness for C10: a whitespace-only input and a two-group input. -/
theorem claim_C10_witness :
    parse_2D_list "  " = [] ∧ parse_2D_list "a,b ; c" = [["a", "b"], ["c"]] :=
  ⟨(claim_C10 "  ").1 (by decide),
   by rw [(claim_C10 "a,b ; c").2 (by decide)]; decide⟩

/-- C5: the digit branch of `reconstruct` for standard BIP39 diverges from
the specified substitution.  On the flattened part list `["1 2"]` with a
dictionary whose first two words are `alpha` and `beta`, the code (which
iterates over the characters of `shares[0]`) produces the three strings
`["alpha", "", "beta"]`, while the specified per-part substitution
produces the single part `["alpha beta"]`. -/
theorem claim_C5_divergence :
    reconstruct_bip39_digits_code ["alpha", "beta"] ["1 2"] = .ok ["alpha", "", "beta"] ∧
    reconstruct_bip39_digits_spec ["alpha", "beta"] ["1 2"] = .ok ["alpha beta"] ∧
    reconstruct_bip39_digits_code ["alpha", "beta"] ["1 2"]
      ≠ reconstruct_bip39_digits_spec ["alpha", "beta"] ["1 2"] := by
  refine ⟨by decide, by decide, by decide⟩

/-- C8: the codec round-trip law.  Decoding the encoding of any entropy of a
valid length returns the identical entropy, and re-encoding the entropy
decoded from any valid mnemonic yields the identical mnemonic. -/
theorem claim_C8 :
    (∀ e : List Nat, e.length ∈ ([16, 20, 24, 28, 32] : List Nat) →
      (∀ b ∈ e, b < 256) → bip39_decode (bip39_encode e) = .ok e) ∧
    (∀ m e : List Nat, bip39_decode m = .ok e → bip39_encode e = m) :=
  ⟨bip39_decode_encode, bip39_encode_decode⟩

set_option maxRecDepth 4000 in
/-- Witness for C8 at a concrete 20-byte entropy. -/
theorem claim_C8_witness :
    bip39_decode (bip39_encode (List.range 20)) = .ok (List.range 20) ∧
    bip39_encode (List.range 20) = bip39_encode (List.range 20) :=
  ⟨claim_C8.1 (List.range 20) (by decide) (by decide),
   claim_C8.2 (bip39_encode (List.range 20)) (List.range 20)
     (claim_C8.1 (List.range 20) (by decide) (by decide))⟩

/-- C9: reconstruction of any sub-collection of a share group produced with
threshold `M` that carries fewer than `M` distinct member indices fails
with `InsufficientShares` and never returns a part value. -/
theorem claim_C9 (rand : Nat → Nat → Nat) (part : List Nat) (m n gidx : Nat)
    (shs sub : List Share)
    (hsplit : slip39_split rand part m n gidx = .ok shs)
    (hsub : ∀ x ∈ sub, x ∈ shs)
    (hfew : ((sub.map Share.memberIndex).dedup).length < m) :
    slip39_reconstruct sub = .error .insufficientShares := by
  cases sub with
  | nil => rfl
  | cons s rest =>
    have hth : s.threshold = m :=
      slip39_split_threshold rand part m n gidx shs hsplit s (hsub s (by simp))
    rw [slip39_reconstruct, if_pos (by rw [hth]; exact hfew)]

set_option maxRecDepth 4000 in
/-- Witness for C9: a 2-of-3 split of a concrete 2-byte part, reconstructed
from a single share. -/
theorem claim_C9_witness :
    slip39_reconstruct ((((slip39_split randC [1, 2] 2 3 0).toOption).getD []).take 1) =
      .error .insufficientShares :=
  claim_C9 randC [1, 2] 2 3 0 (((slip39_split randC [1, 2] 2 3 0).toOption).getD [])
    ((((slip39_split randC [1, 2] 2 3 0).toOption).getD []).take 1)
    (by decide) (by decide) (by decide)

theorem bip39_decode_ok_wordCount (m e : List Nat) (h : bip39_decode m = .ok e) :
    m.length ∈ ([12, 15, 18, 21, 24] : List Nat) := by
  by_contra hc
  rw [bip39_decode, if_neg hc] at h
  cases h

theorem deconstruct_bip39_ok (rand : Nat → Nat → Nat) (mnemonic e : List Nat)
    (digits : Bool) (hv : bip39_decode mnemonic = .ok e) :
    deconstruct_bip39 rand mnemonic digits =
      .ok (((xor_split rand e (if mnemonic.length = 24 then 2 else 1)).map
        bip39_encode).map (bip39Bundle digits)) := by
  have hne : mnemonic.isEmpty = false := by
    have := bip39_decode_ok_wordCount mnemonic e hv
    cases mnemonic
    · simp at this
    · rfl
  rw [deconstruct_bip39, if_neg (by simp [hne])]
  simp only [BIP39.deconstruct, hv, ok_bind]

/-- C2: for a valid mnemonic the split count is 2 exactly when the mnemonic
has 24 words and 1 otherwise, and the BIP39-standard `deconstruct` returns
exactly one result bundle per part, so the number of bundles equals the
split count. -/
theorem claim_C2 (rand : Nat → Nat → Nat) (mnemonic e : List Nat) (digits : Bool)
    (hv : bip39_decode mnemonic = .ok e) :
    ∃ bundles, deconstruct_bip39 rand mnemonic digits = .ok bundles ∧
      bundles.length = (if mnemonic.length = 24 then 2 else 1) ∧
      ((if mnemonic.length = 24 then 2 else 1) = 2 ↔ mnemonic.length = 24) := by
  refine ⟨_, deconstruct_bip39_ok rand mnemonic e digits hv, ?_, ?_⟩
  · simp only [List.length_map]
    exact xor_split_length rand e _ (by split <;> omega)
  · by_cases h : mnemonic.length = 24 <;> simp [h]

set_option maxRecDepth 40000 in
/-- Witness for C2 at the concrete 24-word mnemonic. -/
theorem claim_C2_witness :
    ∃ bundles, deconstruct_bip39 randC mnemonic24 false = .ok bundles ∧
      bundles.length = (if mnemonic24.length = 24 then 2 else 1) ∧
      ((if mnemonic24.length = 24 then 2 else 1) = 2 ↔ mnemonic24.length = 24) :=
  claim_C2 randC mnemonic24 entropy32 false (by decide)

/-- C7: with standard BIP39, `deconstruct` returns one bundle per part, and
each bundle carries that part's mnemonic together with its own derived
verification label. -/
theorem claim_C7 (rand : Nat → Nat → Nat) (mnemonic e : List Nat) (digits : Bool)
    (hv : bip39_decode mnemonic = .ok e) :
    ∃ parts,
      BIP39.deconstruct rand mnemonic (if mnemonic.length = 24 then 2 else 1) = .ok parts ∧
      deconstruct_bip39 rand mnemonic digits = .ok (parts.map (bip39Bundle digits)) ∧
      ∀ p, ("mnemonic", JVal.arr (p.map JVal.n)) ∈ bip39Bundle digits p ∧
        ("eth_addr", JVal.s (BIP39.eth p)) ∈ bip39Bundle digits p := by
  refine ⟨(xor_split rand e (if mnemonic.length = 24 then 2 else 1)).map bip39_encode,
    ?_, deconstruct_bip39_ok rand mnemonic e digits hv, ?_⟩
  · simp only [BIP39.deconstruct, hv, ok_bind]
  · intro p
    constructor <;> simp [bip39Bundle]

set_option maxRecDepth 40000 in
/-- Witness for C7 at the concrete 24-word mnemonic. -/
theorem claim_C7_witness :
    ∃ parts,
      BIP39.deconstruct randC mnemonic24 (if mnemonic24.length = 24 then 2 else 1) = .ok parts ∧
      deconstruct_bip39 randC mnemonic24 true = .ok (parts.map (bip39Bundle true)) ∧
      ∀ p, ("mnemonic", JVal.arr (p.map JVal.n)) ∈ bip39Bundle true p ∧
        ("eth_addr", JVal.s (BIP39.eth p)) ∈ bip39Bundle true p :=
  claim_C7 randC mnemonic24 entropy32 true (by decide)

/-! ### C1: no part-count validation in `reconstruct` -/

theorem bip39_decode_no_pcm (m : List Nat) :
    bip39_decode m ≠ .error .partCountMismatch := by
  intro h
  rw [bip39_decode] at h
  split at h
  · simp only at h
    split at h
    · split at h
      · cases h
      · simp at h
    · simp at h
  · simp at h

theorem xor_combine_no_pcm (ps : List (List Nat)) :
    xor_combine ps ≠ .error .partCountMismatch := by
  intro h
  cases ps with
  | nil => simp only [xor_combine] at h; simp at h
  | cons p ps =>
    simp only [xor_combine] at h
    split at h
    · cases h
    · simp at h

theorem BIP39_reconstruct_no_pcm (parts : List (List Nat)) :
    BIP39.reconstruct parts ≠ .error .partCountMismatch := by
  intro h
  unfold BIP39.reconstruct at h
  cases hm : mapME bip39_decode parts with
  | error er =>
    rw [hm, error_bind] at h
    cases h
    rcases mapME_error bip39_decode parts _ hm with ⟨a, _, hfa⟩
    exact bip39_decode_no_pcm a hfa
  | ok es =>
    rw [hm, ok_bind] at h
    cases hc : xor_combine es with
    | error er =>
      rw [hc, error_bind] at h
      cases h
      exact xor_combine_no_pcm es hc
    | ok entropy => rw [hc, ok_bind] at h; cases h

theorem pyIndex_no_pcm {α : Type} (l : List α) (i : Nat) :
    pyIndex l i ≠ .error .partCountMismatch := by
  intro h
  rw [pyIndex] at h
  split at h
  · cases h
  · simp at h

theorem reconLoopS_no_pcm {gty : Type} (prep : gty → Except Err (List (List String)))
    (gr : List String → Nat) (srec : List (List String) → Except Err (List Nat))
    (hprep : ∀ g, prep g ≠ .error .partCountMismatch)
    (hsrec : ∀ g, srec g ≠ .error .partCountMismatch) :
    ∀ (gs : List gty) (gidx r : Nat),
      reconLoopS prep gr srec gidx r gs ≠ .error .partCountMismatch := by
  intro gs
  induction gs with
  | nil => intro gidx r h; cases h
  | cons g0 gs ih =>
    intro gidx r h
    rw [reconLoopS] at h
    cases hp : prep g0 with
    | error er =>
      rw [hp, error_bind] at h
      cases h
      exact hprep g0 hp
    | ok group =>
      rw [hp, ok_bind] at h
      cases hg : pyIndex group gidx with
      | error er =>
        rw [hg, error_bind] at h
        cases h
        exact pyIndex_no_pcm group gidx hg
      | ok member =>
        rw [hg, ok_bind] at h
        cases hs : srec group with
        | error er =>
          rw [hs, error_bind] at h
          cases h
          exact hsrec group hs
        | ok part =>
          rw [hs, ok_bind] at h
          cases hrec : reconLoopS prep gr srec (gidx + 1) (gr member) gs with
          | error er =>
            rw [hrec, error_bind] at h
            cases h
            exact ih (gidx + 1) (gr member) hrec
          | ok rp =>
            rw [hrec, ok_bind] at h
            cases h

set_option maxRecDepth 40000 in
/-- Counterexample for C1: the 24-word `mnemonic24` deconstructs into
`split = 2` parts, yet `reconstruct` given only ONE part group succeeds --
it silently returns a reconstructed mnemonic instead of failing with
`PartCountMismatch`. -/
theorem claim_C1_counterexample :
    (if mnemonic24.length = 24 then 2 else 1) = 2 ∧
    BIP39.deconstruct randC mnemonic24 2 = .ok parts24 ∧
    (reconstruct_bip39 [[parts24.headD []]]).isOk = true := by
  refine ⟨by decide, by decide, by decide⟩

/-- C1 amended: `reconstruct` performs no validation of the supplied group
count against the original split count -- there is no `PartCountMismatch`
failure path at all (the caller must assert the count, spec section 9).
Provided the sharing engine's own failures are not `PartCountMismatch`
(its spec-mandated errors are `InsufficientShares`, `InconsistentGroup`,
`DuplicateMember`), neither CLI branch ever fails with
`PartCountMismatch`. -/
theorem claim_C1_amended {gty : Type} (prep : gty → Except Err (List (List String)))
    (gr : List String → Nat) (srec : List (List String) → Except Err (List Nat))
    (digits : Bool) (groupsS : List gty) (groupsB : List (List (List Nat)))
    (hprep : ∀ g, prep g ≠ .error .partCountMismatch)
    (hsrec : ∀ g, srec g ≠ .error .partCountMismatch) :
    reconstruct_slip39 prep gr srec digits groupsS ≠ .error .partCountMismatch ∧
    reconstruct_bip39 groupsB ≠ .error .partCountMismatch := by
  constructor
  · intro h
    rw [reconstruct_slip39] at h
    split at h
    · simp at h
    · cases hl : reconLoopS prep gr srec 0 0 groupsS with
      | error er =>
        rw [hl, error_bind] at h
        cases h
        exact reconLoopS_no_pcm prep gr srec hprep hsrec groupsS 0 0 hl
      | ok rp =>
        rw [hl, ok_bind] at h
        cases hb : BIP39.reconstruct rp.2 with
        | error er =>
          rw [hb, error_bind] at h
          cases h
          exact BIP39_reconstruct_no_pcm rp.2 hb
        | ok m => rw [hb, ok_bind] at h; cases h
  · intro h
    rw [reconstruct_bip39] at h
    split at h
    · simp at h
    · cases hb : BIP39.reconstruct groupsB.flatten with
      | error er =>
        rw [hb, error_bind] at h
        cases h
        exact BIP39_reconstruct_no_pcm groupsB.flatten hb
      | ok m => rw [hb, ok_bind] at h; cases h

/-- Witness for C1 amended, at the single-group input of the
counterexample and a concrete SLIP39-side input. -/
theorem claim_C1_amended_witness :
    reconstruct_slip39 Except.ok reqC srecC false [[["a"], ["b"]]]
      ≠ .error .partCountMismatch ∧
    reconstruct_bip39 [[parts24.headD []]] ≠ .error .partCountMismatch :=
  claim_C1_amended Except.ok reqC srecC false [[["a"], ["b"]]] [[parts24.headD []]]
    (fun _ h => by cases h)
    (fun g h => by unfold srecC at h; split at h <;> simp at h)

/-! ### C3: fields of the SLIP39 `deconstruct` output -/

set_option maxRecDepth 4000 in
/-- Counterexample for C3: a concrete SLIP39 `deconstruct` call succeeds
with an output object whose fields are exactly
`standard, shares, split, digits` -- it contains no verification label
(`eth_addr`) and no echoed `required`/`total` parameters. -/
theorem claim_C3_counterexample :
    (deconstruct_slip39 [] sdecC randC (bip39_encode (List.range 16)) 2 3 false).map
      JObj.keys = .ok ["standard", "shares", "split", "digits"] ∧
    "eth_addr" ∉ (["standard", "shares", "split", "digits"] : List String) ∧
    "required" ∉ (["standard", "shares", "split", "digits"] : List String) ∧
    "total" ∉ (["standard", "shares", "split", "digits"] : List String) := by
  refine ⟨by decide, by decide, by decide, by decide⟩

/-- C3 amended: every successful SLIP39 `deconstruct` output contains
exactly the fields `standard`, `shares`, `split` and `digits` -- the share
strings and the echoed split count, but no verification label and no
echoed threshold or total-shares parameters. -/
theorem claim_C3_amended (d : List String)
    (sdec : List Nat → Nat → Nat → Except Err (List (List String)))
    (rand : Nat → Nat → Nat) (mnemonic : List Nat) (required total : Nat)
    (digits : Bool) (o : JObj)
    (h : deconstruct_slip39 d sdec rand mnemonic required total digits = .ok o) :
    JObj.keys o = ["standard", "shares", "split", "digits"] ∧
    ("split", JVal.n (if mnemonic.length = 24 then 2 else 1)) ∈ o ∧
    ("digits", JVal.b digits) ∈ o ∧
    "eth_addr" ∉ JObj.keys o ∧ "required" ∉ JObj.keys o ∧ "total" ∉ JObj.keys o := by
  rw [deconstruct_slip39] at h
  split at h
  · cases h
  · simp only [] at h
    cases hbp : BIP39.deconstruct rand mnemonic (if mnemonic.length = 24 then 2 else 1) with
    | error er => rw [hbp, error_bind] at h; cases h
    | ok parts =>
      rw [hbp, ok_bind] at h
      cases hg : mapME (deconGroup d sdec required total digits) parts with
      | error er => rw [hg, error_bind] at h; cases h
      | ok groups =>
        rw [hg, ok_bind] at h
        cases h
        refine ⟨rfl, by simp, by simp, by simp [JObj.keys], by simp [JObj.keys],
          by simp [JObj.keys]⟩

/-- The SLIP39 `deconstruct` output at the concrete 12-word input used by
the witness for the amended C3. -/
def out12 : JObj :=
  [("standard", JVal.s "SLIP39"),
   ("shares", JVal.arr [JVal.arr (List.replicate 3 (JVal.arr
     (List.replicate 13 (JVal.s "w"))))]),
   ("split", JVal.n 1), ("digits", JVal.b false)]

set_option maxRecDepth 4000 in
/-- Witness for the amended C3 at a concrete input. -/
theorem claim_C3_amended_witness :
    JObj.keys out12 = ["standard", "shares", "split", "digits"] ∧
    ("split", JVal.n (if (bip39_encode (List.range 16)).length = 24 then 2 else 1)) ∈ out12 ∧
    ("digits", JVal.b false) ∈ out12 ∧
    "eth_addr" ∉ JObj.keys out12 ∧ "required" ∉ JObj.keys out12 ∧
    "total" ∉ JObj.keys out12 :=
  claim_C3_amended [] sdecC randC (bip39_encode (List.range 16)) 2 3 false out12 (by rfl)

/-! ### C6: `required` extraction in the SLIP39 `reconstruct` loop -/

/-- Boolean test that a computation failed with a specific error (used in
concrete statements, where deciding equality of full outputs would need
decidable equality of JSON values). -/
def isErrOf {α : Type} (x : Except Err α) (er : Err) : Bool :=
  match x with
  | .error e2 => e2 = er
  | .ok _ => false

theorem pyIndex_ok {α : Type} (l : List α) (i : Nat) (hi : i < l.length) (d : α) :
    pyIndex l i = .ok (l.getD i d) := by
  rw [pyIndex, List.get?_eq_get hi]
  simp [List.getD_eq_getElem?_getD, List.getElem?_eq_getElem hi, List.get_eq_getElem]

theorem pyIndex_oob {α : Type} (l : List α) (i : Nat) (hi : l.length ≤ i) :
    pyIndex l i = .error .indexError := by
  rw [pyIndex, List.get?_eq_none.mpr hi]

theorem reconLoopS_index_error (gr : List String → Nat)
    (srec : List (List String) → Except Err (List Nat)) :
    ∀ (gs : List (List (List String))) (gidx r k : Nat), k < gs.length →
      (gs.getD k []).length ≤ gidx + k →
      (∀ j, j < k → gidx + j < (gs.getD j []).length ∧
        (srec (gs.getD j [])).isOk = true) →
      reconLoopS Except.ok gr srec gidx r gs = .error .indexError := by
  intro gs
  induction gs with
  | nil => intro gidx r k hk; exact absurd hk (by simp)
  | cons g0 gs ih =>
    intro gidx r k hk hlen hpre
    cases k with
    | zero =>
      rw [reconLoopS, ok_bind]
      have : g0.length ≤ gidx := by simpa using hlen
      rw [pyIndex_oob g0 gidx this, error_bind]
    | succ k =>
      have h0 := hpre 0 (by omega)
      simp only [List.getD_cons_zero] at h0
      have hg : gidx < g0.length := by simpa using h0.1
      rw [reconLoopS, ok_bind, pyIndex_ok g0 gidx hg [], ok_bind]
      cases hs : srec g0 with
      | error er =>
        rw [hs] at h0
        simp [Except.isOk, Except.toBool] at h0
      | ok part =>
        simp only [hs, ok_bind]
        have hrec : reconLoopS Except.ok gr srec (gidx + 1)
            (gr (g0.getD gidx [])) gs = .error .indexError := by
          apply ih (gidx + 1) _ k (by simpa using hk)
          · simpa [Nat.add_assoc, Nat.add_comm, Nat.add_left_comm] using hlen
          · intro j hj
            have := hpre (j + 1) (by omega)
            simpa [Nat.add_assoc, Nat.add_comm, Nat.add_left_comm] using this
        simp only [hrec, error_bind]

theorem reconLoopS_ok_required (gr : List String → Nat)
    (srec : List (List String) → Except Err (List Nat)) :
    ∀ (gs : List (List (List String))) (gidx r0 r : Nat) (ps : List (List Nat)),
      gs ≠ [] → reconLoopS Except.ok gr srec gidx r0 gs = .ok (r, ps) →
      r = gr ((gs.getLastD []).getD (gidx + gs.length - 1) []) := by
  intro gs
  induction gs with
  | nil => intro gidx r0 r ps hne; exact absurd rfl hne
  | cons g0 gs ih =>
    intro gidx r0 r ps _ h
    rw [reconLoopS, ok_bind] at h
    cases hg : pyIndex g0 gidx with
    | error er => rw [hg, error_bind] at h; cases h
    | ok member =>
      rw [hg, ok_bind] at h
      cases hs : srec g0 with
      | error er => rw [hs, error_bind] at h; cases h
      | ok part =>
        rw [hs, ok_bind] at h
        cases gs with
        | nil =>
          rw [reconLoopS, ok_bind] at h
          cases h
          have hmem : member = g0.getD gidx [] := by
            rw [pyIndex] at hg
            cases hq : g0.get? gidx with
            | none => rw [hq] at hg; cases hg
            | some m =>
              rw [hq] at hg
              cases hg
              rw [List.getD_eq_getElem?_getD, ← List.get?_eq_getElem?, hq]
              rfl
          simp [hmem]
        | cons g1 gs =>
          cases hrec : reconLoopS Except.ok gr srec (gidx + 1) (gr member) (g1 :: gs) with
          | error er => rw [hrec, error_bind] at h; cases h
          | ok rp =>
            rw [hrec, ok_bind] at h
            cases h
            have := ih (gidx + 1) (gr member) rp.1 rp.2 (by simp) (by rw [hrec])
            rw [this]
            have h1 : (g0 :: g1 :: gs).getLastD ([] : List (List String))
                = (g1 :: gs).getLastD [] := by
              simp [List.getLastD_eq_getLast?]
            have h2 : gidx + 1 + (g1 :: gs).length - 1
                = gidx + (g0 :: g1 :: gs).length - 1 := by
              simp only [List.length_cons]
              omega
            rw [h1, h2]

/-- Counterexample for C6: an input whose group at index 1 has 0 (at most 1)
members, yet the operation does not raise an out-of-range indexing error --
group 0's engine reconstruction fails first (a single share against a
threshold of 2 is `InsufficientShares`, spec section 4.4), preempting the
indexing of group 1. -/
theorem claim_C6_counterexample :
    ((([[["a"]], []] : List (List (List String))).getD 1 []).length ≤ 1) ∧
    isErrOf (reconstruct_slip39 Except.ok reqC srecC false [[["a"]], []])
      .insufficientShares = true ∧
    isErrOf (reconstruct_slip39 Except.ok reqC srecC false [[["a"]], []])
      .indexError = false := by
  refine ⟨by decide, by decide, by decide⟩

/-- C6 amended: in the SLIP39 branch of `reconstruct`, the echoed `required`
is read from `group[gidx]` -- the group indexed by its own group index.
Consequently (a) if the FIRST group g whose length is at most g is reached
with every earlier group both long enough and successfully reconstructed,
the operation raises an out-of-range indexing error, and (b) on success the
echoed `required` value is the one extracted from the last group only. -/
theorem claim_C6_amended (gr : List String → Nat)
    (srec : List (List String) → Except Err (List Nat))
    (groups : List (List (List String))) :
    (∀ k, k < groups.length → (groups.getD k []).length ≤ k →
      (∀ j, j < k → j < (groups.getD j []).length ∧
        (srec (groups.getD j [])).isOk = true) →
      reconstruct_slip39 Except.ok gr srec false groups = .error .indexError) ∧
    (∀ r ps, groups ≠ [] →
      reconLoopS Except.ok gr srec 0 0 groups = .ok (r, ps) →
      r = gr ((groups.getLastD []).getD (groups.length - 1) [])) := by
  constructor
  · intro k hk hlen hpre
    have hne : groups.isEmpty = false := by
      cases groups
      · simp at hk
      · rfl
    rw [reconstruct_slip39, if_neg (by simp [hne])]
    have hloop : reconLoopS Except.ok gr srec 0 0 groups = .error .indexError := by
      apply reconLoopS_index_error gr srec groups 0 0 k hk (by simpa using hlen)
      intro j hj
      simpa using hpre j hj
    rw [hloop, error_bind]
  · intro r ps hne h
    have := reconLoopS_ok_required gr srec groups 0 0 r ps hne h
    simpa using this

/-- Witness for C6 amended: part (a) at a first group with zero members, and
part (b) at a concrete two-group success whose echoed `required` is the one
read from the last group's member at index 1. -/
theorem claim_C6_amended_witness :
    reconstruct_slip39 Except.ok reqC srecC false [[]] = .error .indexError ∧
    (reqC ["c", "c"] =
      reqC ((([[["a"], ["b"]], [["c"], ["c", "c"]]] :
        List (List (List String))).getLastD []).getD 1 [])) :=
  ⟨(claim_C6_amended reqC srecC [[]]).1 0 (by decide) (by decide)
      (fun j hj => absurd hj (Nat.not_lt_zero j)),
   by
     have h := (claim_C6_amended reqC srecC [[["a"], ["b"]], [["c"], ["c", "c"]]]).2
       (reqC ["c", "c"])
       [bip39_encode (List.range 16), bip39_encode (List.range 16)]
       (by simp) (by decide)
     simpa using h⟩

/-! ### C4: word/index substitution round-trip -/

theorem dict_roundtrip_word (d : List String) (w : String) (hw : w ∈ d) :
    dictIndexOf d w = .ok (d.indexOf w + 1) ∧
    pyGet d (((d.indexOf w + 1 : Nat) : Int) - 1) = .ok w := by
  constructor
  · rw [dictIndexOf, if_pos hw]
  · have hi : (((d.indexOf w + 1 : Nat) : Int) - 1) = ((d.indexOf w : Nat) : Int) := by
      push_cast
      ring
    have hneg : ¬ ((List.indexOf w d : Nat) : Int) < 0 := by omega
    simp only [pyGet, hi, if_neg hneg]
    rw [if_pos (show (0 : Int) ≤ ((List.indexOf w d : Nat) : Int) by omega)]
    simp only [Int.toNat_natCast]
    rw [List.indexOf_get? hw]

theorem digitEncodeShare_roundtrip (d : List String) :
    ∀ (share : List String), (∀ w ∈ share, w ∈ d) →
      ∃ idxs, digitEncodeShare d share = .ok idxs ∧
        digitDecodeMember d idxs = .ok share := by
  intro share
  induction share with
  | nil => intro _; exact ⟨[], rfl, rfl⟩
  | cons w ws ih =>
    intro h
    have hw := h w (by simp)
    rcases ih (fun x hx => h x (by simp [hx])) with ⟨idxs, he, hd2⟩
    rcases dict_roundtrip_word d w hw with ⟨h1, h2⟩
    refine ⟨(d.indexOf w + 1) :: idxs, ?_, ?_⟩
    · rw [digitEncodeShare]
      simp only [mapME]
      rw [h1, ok_bind]
      rw [digitEncodeShare] at he
      rw [he, ok_bind]
    · rw [digitDecodeMember]
      simp only [mapME]
      rw [h2, ok_bind]
      rw [digitDecodeMember] at hd2
      rw [hd2, ok_bind]

theorem digitEncodeGroup_roundtrip (d : List String) :
    ∀ (g : List (List String)), (∀ share ∈ g, ∀ w ∈ share, w ∈ d) →
      ∃ dg, digitEncodeGroup d g = .ok dg ∧ digitDecodeGroup d dg = .ok g := by
  intro g
  induction g with
  | nil => intro _; exact ⟨[], rfl, rfl⟩
  | cons share shares ih =>
    intro h
    rcases digitEncodeShare_roundtrip d share (h share (by simp)) with ⟨idxs, he, hd2⟩
    rcases ih (fun s hs => h s (by simp [hs])) with ⟨dg, hge, hgd⟩
    refine ⟨idxs :: dg, ?_, ?_⟩
    · rw [digitEncodeGroup]
      simp only [mapME]
      rw [he, ok_bind]
      rw [digitEncodeGroup] at hge
      rw [hge, ok_bind]
    · rw [digitDecodeGroup]
      simp only [mapME]
      rw [hd2, ok_bind]
      rw [digitDecodeGroup] at hgd
      rw [hgd, ok_bind]

theorem digitEncodeGroups_roundtrip (d : List String) :
    ∀ (gs : List (List (List String))), (∀ g ∈ gs, ∀ share ∈ g, ∀ w ∈ share, w ∈ d) →
      ∃ dgs, mapME (digitEncodeGroup d) gs = .ok dgs ∧
        List.Forall₂ (fun dg g => digitDecodeGroup d dg = .ok g) dgs gs := by
  intro gs
  induction gs with
  | nil => intro _; exact ⟨[], rfl, List.Forall₂.nil⟩
  | cons g gs ih =>
    intro h
    rcases digitEncodeGroup_roundtrip d g (h g (by simp)) with ⟨dg, hge, hgd⟩
    rcases ih (fun x hx => h x (by simp [hx])) with ⟨dgs, hse, hsd⟩
    refine ⟨dg :: dgs, ?_, List.Forall₂.cons hgd hsd⟩
    simp only [mapME]
    rw [hge, ok_bind, hse, ok_bind]

theorem reconLoopS_prep_eq (d : List String) (gr : List String → Nat)
    (srec : List (List String) → Except Err (List Nat)) :
    ∀ (gs : List (List (List String))) (dgs : List (List (List Nat))) (gidx r : Nat),
      List.Forall₂ (fun dg g => digitDecodeGroup d dg = .ok g) dgs gs →
      reconLoopS (digitDecodeGroup d) gr srec gidx r dgs =
        reconLoopS Except.ok gr srec gidx r gs := by
  intro gs
  induction gs with
  | nil =>
    intro dgs gidx r hf
    cases hf
    rfl
  | cons g gs ih =>
    intro dgs gidx r hf
    cases hf with
    | cons hdg hrest =>
      rename_i dg dgs2
      rw [reconLoopS, reconLoopS, hdg, ok_bind, ok_bind]
      cases pyIndex g gidx with
      | error er => rw [error_bind, error_bind]
      | ok member =>
        rw [ok_bind, ok_bind]
        cases srec g with
        | error er => rw [error_bind, error_bind]
        | ok part =>
          rw [ok_bind, ok_bind, ih dgs2 (gidx + 1) (gr member) hrest]

/-- C4: a SLIP39 share word maps to its 1-based numeric index and back to
the same word, and the whole digit-mode pipeline (`deconstruct` with
`digits = True` producing numeric shares, then `reconstruct` with
`digits = True` substituting them back) recovers the same mnemonic as the
word-mode pipeline on the same shares. -/
theorem claim_C4 (d : List String) (gr : List String → Nat)
    (srec : List (List String) → Except Err (List Nat))
    (wordGroups : List (List (List String)))
    (hw : ∀ g ∈ wordGroups, ∀ share ∈ g, ∀ w ∈ share, w ∈ d) :
    (∀ w ∈ d, dictIndexOf d w = .ok (d.indexOf w + 1) ∧
      pyGet d (((d.indexOf w + 1 : Nat) : Int) - 1) = .ok w) ∧
    ∃ digitGroups, mapME (digitEncodeGroup d) wordGroups = .ok digitGroups ∧
      (reconstruct_slip39 (digitDecodeGroup d) gr srec true digitGroups).map
          (fun o => JObj.get o "mnemonic") =
        (reconstruct_slip39 Except.ok gr srec false wordGroups).map
          (fun o => JObj.get o "mnemonic") := by
  refine ⟨fun w hw2 => dict_roundtrip_word d w hw2, ?_⟩
  rcases digitEncodeGroups_roundtrip d wordGroups hw with ⟨dgs, he, hf⟩
  refine ⟨dgs, he, ?_⟩
  have hlen : dgs.length = wordGroups.length := List.Forall₂.length_eq hf
  rw [reconstruct_slip39, reconstruct_slip39]
  by_cases hempty : wordGroups.isEmpty
  · rw [if_pos hempty, if_pos (by
      cases wordGroups
      · cases dgs
        · rfl
        · simp at hlen
      · simp at hempty)]
  · rw [if_neg hempty, if_neg (by
      cases wordGroups
      · simp at hempty
      · cases dgs
        · simp at hlen
        · simp)]
    rw [reconLoopS_prep_eq d gr srec wordGroups dgs 0 0 hf]
    cases reconLoopS Except.ok gr srec 0 0 wordGroups with
    | error er => rw [error_bind, error_bind]
    | ok rp =>
      rw [ok_bind, ok_bind]
      cases BIP39.reconstruct rp.2 with
      | error er => rw [error_bind, error_bind]
      | ok m =>
        rw [ok_bind, ok_bind]
        simp [Except.map, JObj.get, List.find?]

set_option maxRecDepth 4000 in
/-- Witness for C4 at a concrete two-word dictionary and a concrete group of
two shares. -/
theorem claim_C4_witness :
    (∀ w ∈ ["alpha", "beta"], dictIndexOf ["alpha", "beta"] w =
        .ok ((["alpha", "beta"] : List String).indexOf w + 1) ∧
      pyGet ["alpha", "beta"]
        ((((["alpha", "beta"] : List String).indexOf w + 1 : Nat) : Int) - 1) = .ok w) ∧
    ∃ digitGroups,
      mapME (digitEncodeGroup ["alpha", "beta"])
        [[["alpha", "beta"], ["beta", "alpha"]]] = .ok digitGroups ∧
      (reconstruct_slip39 (digitDecodeGroup ["alpha", "beta"]) reqC srecC true
          digitGroups).map (fun o => JObj.get o "mnemonic") =
        (reconstruct_slip39 Except.ok reqC srecC false
          [[["alpha", "beta"], ["beta", "alpha"]]]).map
            (fun o => JObj.get o "mnemonic") :=
  claim_C4 ["alpha", "beta"] reqC srecC [[["alpha", "beta"], ["beta", "alpha"]]]
    (by decide)
